/-
Verification of `timinghooks.py` (class `Timers`).

The timer state is embedded shallowly:

* Python timestamps (wall-clock seconds, floating point) are modelled as
  rationals `ℚ`, so that all arithmetic in the statistics layer is exact.
* `self.pairs` is a Python `dict` mapping an interval name to the list of
  `(startTime, endTime)` pairs.  A `dict` preserves insertion order and has
  unique keys; it is modelled as an association list `Store` whose lookup
  returns the first matching entry.  The well-formedness predicate
  `keysNodup` states the unique-key invariant that every real `dict` has.
* The lock `self.lock` serialises the mutating critical sections; in the
  embedding each lock-protected block becomes one atomic step function, and
  a concurrent execution becomes an arbitrary interleaving (sequence) of
  such steps.
* `numpy` calls (`sum`, `min`, `max`, `mean`, `percentile` with its default
  linear interpolation) are embedded by their documented mathematical
  definitions, and Python `str.format` by a structured template whose
  placeholders have already been scanned out of the template string.
-/
import Mathlib

/-- One recorded `(startTime, endTime)` pair (`Timers.interval`, line 83). -/
abbrev TimePair : Type := ℚ × ℚ

/-- The `self.pairs` dictionary: interval name ↦ list of recorded pairs,
in insertion order (`Timers.__init__`, line 58). -/
abbrev Store : Type := List (String × List TimePair)

/-- Python `dict` lookup `self.pairs[name]` (first matching key). -/
def lookupStore (s : Store) (name : String) : Option (List TimePair) :=
  match s with
  | [] => none
  | e :: rest => if e.1 = name then some e.2 else lookupStore rest name

/-- The unique-key invariant every Python `dict` satisfies. -/
def keysNodup (s : Store) : Prop := (s.map Prod.fst).Nodup

instance (s : Store) : Decidable (keysNodup s) := by
  unfold keysNodup; infer_instance

/-- The lock-protected body of `Timers.interval` (lines 80-83):
`if intervalName not in self.pairs: self.pairs[intervalName] = []` followed by
`self.pairs[intervalName].append((startTime, endTime))`.  A new key is added at
the end (Python dicts keep insertion order); an existing key has the pair
appended to its list.  The whole block runs under `self.lock`, so it is one
atomic step. -/
def appendPair (s : Store) (name : String) (p : TimePair) : Store :=
  match s with
  | [] => [(name, [p])]
  | e :: rest =>
      if e.1 = name then (e.1, e.2 ++ [p]) :: rest
      else e :: appendPair rest name p

/-- `Timers.interval` as a whole (lines 61-83).  It is a
`contextlib.contextmanager` generator: `startTime = time.time()`, `yield`,
`endTime = time.time()`, then the lock-protected append.  When the wrapped
block raises, the exception is re-raised at the bare `yield` (there is no
`try`/`finally` around it), the generator unwinds, and the code after the
`yield` — including the append — never runs.  `ok = true` is the normal-exit
path, `ok = false` the exception path. -/
def interval (s : Store) (name : String) (startTime endTime : ℚ) (ok : Bool) :
    Store :=
  if ok then appendPair s name (startTime, endTime) else s

/-- `Timers.getDurationsForName` (lines 85-96): `end - start` for each pair,
in recording order; `None` when the name was never recorded. -/
def getDurationsForName (s : Store) (name : String) : Option (List ℚ) :=
  match lookupStore s name with
  | some ps => some (ps.map (fun p => p.2 - p.1))
  | none => none

/-- A sequence of completed interval recordings under one name: each element
is one atomic lock-protected append (the serialisation order the single lock
imposes on concurrent recordings). -/
def recordIntervals (s : Store) (name : String) (recs : List TimePair) :
    Store :=
  recs.foldl (fun acc p => appendPair acc name p) s

/-- `self.pairs[name].extend(l)` (line 105): the (first) entry with the given
key has its list extended in place; nothing else moves. -/
def extendEntry : Store → String → List TimePair → Store
  | [], _, _ => []
  | f :: rest, n, l =>
      if f.1 = n then (f.1, f.2 ++ l) :: rest else f :: extendEntry rest n l

/-- One iteration of the loop body of `Timers.merge` (lines 103-107) for one
entry `(intervalName, otherList)` of `other.pairs`: if the name is already in
`self.pairs`, `extend` appends the other's list; otherwise
`self.pairs[intervalName] = other.pairs[intervalName]` adds the entry (at the
end, by dict insertion order). -/
def mergeStep (acc : Store) (e : String × List TimePair) : Store :=
  if (lookupStore acc e.1).isSome then extendEntry acc e.1 e.2 else acc ++ [e]

/-- `Timers.merge` (lines 98-107): fold the loop body over `other.pairs` in
insertion order.  The whole loop runs under `self.lock`. -/
def merge (self other : Store) : Store :=
  other.foldl mergeStep self

/-- `Timers.merge` with both objects' states threaded explicitly: the loop
reads `other.pairs` and writes only `self.pairs`, so the second component is
carried through every iteration unchanged. -/
def mergeLoop : Store × Store → List (String × List TimePair) → Store × Store
  | st, [] => st
  | st, e :: rest => mergeLoop (mergeStep st.1 e, st.2) rest

/-- `self.merge(other)` acting on the pair of object states. -/
def mergeBoth (self other : Store) : Store × Store :=
  mergeLoop (self, other) other

/-- A value stored in the `__dict__` of a `Timers` object: either the
`pairs` mapping or a lock object (identified by an allocation id, since
lock objects carry no data relevant here). -/
inductive AttrVal where
  | pairsVal : Store → AttrVal
  | lockVal : Nat → AttrVal
deriving DecidableEq

/-- A `Timers` object: its `pairs` dict and the identity of its `lock`. -/
structure TimersObj where
  pairs : Store
  lockId : Nat
deriving DecidableEq

/-- `self.__dict__` of a `Timers` object (attributes set in `__init__`,
lines 57-59, in insertion order). -/
def objDict (t : TimersObj) : List (String × AttrVal) :=
  [("pairs", AttrVal.pairsVal t.pairs), ("lock", AttrVal.lockVal t.lockId)]

/-- `Timers.__getstate__` (lines 159-167): copy `self.__dict__` (under the
lock) and `d.pop('lock')`, so the returned state holds everything except the
lock. -/
def getstate (t : TimersObj) : List (String × AttrVal) :=
  (objDict t).filter (fun e => decide (e.1 ≠ "lock"))

/-- First-match lookup in an attribute dict. -/
def lookupAttr (d : List (String × AttrVal)) (n : String) : Option AttrVal :=
  match d with
  | [] => none
  | e :: rest => if e.1 = n then some e.2 else lookupAttr rest n

/-- `Timers.__setstate__` (lines 169-175): `self.lock = threading.Lock()`
allocates a fresh lock, then `self.__dict__.update(state)` installs every
attribute from the state (overwriting the fresh lock only if the state
contains a `lock` entry, which `__getstate__` never emits). -/
def setstate (state : List (String × AttrVal)) (freshLockId : Nat) :
    TimersObj :=
  { pairs :=
      match lookupAttr state "pairs" with
      | some (AttrVal.pairsVal s) => s
      | _ => []
    lockId :=
      match lookupAttr state "lock" with
      | some (AttrVal.lockVal k) => k
      | _ => freshLockId }

/-- The duration list `[p[1] - p[0] for p in pairs]` (line 93). -/
def durations (ps : List TimePair) : List ℚ :=
  ps.map (fun p => p.2 - p.1)

/-- Ascending sort, as `numpy.percentile` performs internally. -/
def pSort (xs : List ℚ) : List ℚ :=
  List.insertionSort (fun a b => a ≤ b) xs

/-- `numpy.ndarray.min` on a non-empty array: the least element.  (numpy
raises on an empty array; the store invariant — a key exists only after at
least one append — keeps the argument non-empty, and the `[]` case value is
irrelevant.) -/
def arrMin : List ℚ → ℚ
  | [] => 0
  | x :: xs => xs.foldl min x

/-- `numpy.ndarray.max` on a non-empty array: the greatest element. -/
def arrMax : List ℚ → ℚ
  | [] => 0
  | x :: xs => xs.foldl max x

/-- Linear interpolation at fractional rank `h` into the sorted array `a`:
`a[floor(h)] + (h - floor(h)) * (a[ceil(h)] - a[floor(h)])`.  This is the
core of `numpy.percentile`'s default (`linear`) interpolation method. -/
def interpAt (a : List ℚ) (h : ℚ) : ℚ :=
  a.getD (Int.toNat ⌊h⌋) 0 +
    (h - (Int.toNat ⌊h⌋ : ℚ)) * (a.getD (Int.toNat ⌈h⌉) 0 - a.getD (Int.toNat ⌊h⌋) 0)

/-- `numpy.percentile(xs, q)` with the default linear interpolation between
closest ranks: sort, take the fractional rank `h = (q/100) * (n - 1)`, and
interpolate linearly between the neighbouring order statistics. -/
def percentile (xs : List ℚ) (q : ℚ) : ℚ :=
  interpAt (pSort xs) ((q / 100) * ((xs.length : ℚ) - 1))

/-- The per-name summary record built by `Timers.makeSummaryDict`
(lines 123-125), fields in the dict-literal insertion order. -/
structure SummaryStats where
  total : ℚ
  min : ℚ
  max : ℚ
  lowerq : ℚ
  median : ℚ
  upperq : ℚ
  mean : ℚ
  count : Nat
deriving DecidableEq

/-- The statistics computed in the loop body of `Timers.makeSummaryDict`
(lines 115-125) from one duration list. -/
def summarize (ds : List ℚ) : SummaryStats :=
  { total := ds.sum
    min := arrMin ds
    max := arrMax ds
    lowerq := percentile ds 25
    median := percentile ds 50
    upperq := percentile ds 75
    mean := ds.sum / (ds.length : ℚ)
    count := ds.length }

/-- `Timers.makeSummaryDict` (lines 109-126): one summary record per name in
the store, keyed as in the store, durations re-read through
`getDurationsForName`. -/
def makeSummaryDict (s : Store) : List (String × SummaryStats) :=
  s.map (fun e => (e.1, summarize ((getDurationsForName s e.1).getD [])))

/-- First-match lookup in a summary dict. -/
def lookupSummary (d : List (String × SummaryStats)) (n : String) :
    Option SummaryStats :=
  match d with
  | [] => none
  | e :: rest => if e.1 = n then some e.2 else lookupSummary rest n

/-- A summary record stated in the spec's own words, for comparison with
`summarize`: total = sum, min = minimum (least order statistic), max =
maximum (greatest order statistic), mean = arithmetic mean, quartiles = the
25th/50th/75th interpolated percentiles, count = length. -/
def specStats (ds : List ℚ) : SummaryStats :=
  { total := ds.sum
    min := (pSort ds).headD 0
    max := (pSort ds).getLastD 0
    lowerq := percentile ds 25
    median := percentile ds 50
    upperq := percentile ds 75
    mean := ds.sum / (ds.length : ℚ)
    count := ds.length }

/-- One piece of a report template, after the placeholder syntax of the
template string has been scanned: either literal text or a `{field:fmt}`
placeholder with its field name and formatting directive. -/
inductive TemplateItem where
  | lit : String → TemplateItem
  | field : String → String → TemplateItem
deriving DecidableEq

/-- The items of the per-name summary dict (lines 123-125) as (key, numeric
value) pairs, in insertion order; `count` is an int, read here as a rational
like every other value. -/
def statList (st : SummaryStats) : List (String × ℚ) :=
  [("total", st.total), ("min", st.min), ("max", st.max),
   ("lowerq", st.lowerq), ("median", st.median), ("upperq", st.upperq),
   ("mean", st.mean), ("count", (st.count : ℚ))]

/-- The `fieldDict` built by `Timers.reportFromTemplate` (lines 151-155):
for every name and every statistic key, one entry `"<name>@<stat>"`. -/
def buildFieldDict (summary : List (String × SummaryStats)) :
    List (String × ℚ) :=
  summary.flatMap (fun e =>
    (statList e.2).map (fun p => (e.1 ++ "@" ++ p.1, p.2)))

/-- First-match lookup in the field dict. -/
def lookupField (d : List (String × ℚ)) (n : String) : Option ℚ :=
  match d with
  | [] => none
  | e :: rest => if e.1 = n then some e.2 else lookupField rest n

/-- Decimal digit character (`'0'` has code 48). -/
def digitChar (d : Nat) : Char := Char.ofNat (48 + d)

/-- The decimal digits of a natural number, most significant first. -/
def natDigits (n : Nat) : List Char :=
  if n < 10 then [digitChar n]
  else natDigits (n / 10) ++ [digitChar (n % 10)]
termination_by n
decreasing_by exact Nat.div_lt_self (by omega) (by omega)

/-- The decimal rendering of an integer. -/
def intDigits (i : Int) : List Char :=
  if i < 0 then '-' :: natDigits i.natAbs else natDigits i.natAbs

/-- Modelled from the spec: the numeric rendering Python `str.format`
performs for one placeholder ("replacing every placeholder with its
corresponding numeric value formatted per the placeholder's own formatting
directive").  The exact digit string the directive selects is irrelevant to
the claims, so the value is rendered exactly, as `num` or `num/den`; the
directive is carried but does not change which characters can appear
(digits, `-`, `/`). -/
def renderValue (v : ℚ) (fmtDirective : String) : String :=
  let _ := fmtDirective
  String.mk (intDigits v.num ++ (if v.den = 1 then [] else '/' :: natDigits v.den))

/-- Modelled from the spec: `templateStr.format(**fieldDict)` (line 156) on
the scanned template — substitute every placeholder left to right from the
field dict, failing with the missing field's name (Python's `KeyError`) at
the first placeholder whose field is absent, producing no partial output. -/
def formatItems (fields : List (String × ℚ)) :
    List TemplateItem → Except String String
  | [] => Except.ok ""
  | TemplateItem.lit s :: rest =>
      match formatItems fields rest with
      | Except.ok r => Except.ok (s ++ r)
      | Except.error e => Except.error e
  | TemplateItem.field n fmt :: rest =>
      match lookupField fields n with
      | some v =>
          match formatItems fields rest with
          | Except.ok r => Except.ok (renderValue v fmt ++ r)
          | Except.error e => Except.error e
      | none => Except.error n

/-- `Timers.reportFromTemplate` (lines 128-157): build the summary, flatten
it into `fieldDict`, format the template against it. -/
def reportFromTemplate (s : Store) (tpl : List TemplateItem) :
    Except String String :=
  formatItems (buildFieldDict (makeSummaryDict s)) tpl

/-- A string free of both brace characters (no placeholder syntax). -/
def stringNoBrace (s : String) : Prop :=
  Char.ofNat 123 ∉ s.data ∧ Char.ofNat 125 ∉ s.data

instance (s : String) : Decidable (stringNoBrace s) := by
  unfold stringNoBrace; infer_instance

/-- A template item whose literal text is brace-free (placeholders are
structured, so they carry no brace characters of their own). -/
def itemLitNoBrace : TemplateItem → Prop
  | TemplateItem.lit s => stringNoBrace s
  | TemplateItem.field _ _ => True

instance (i : TemplateItem) : Decidable (itemLitNoBrace i) := by
  cases i <;> simp only [itemLitNoBrace] <;> infer_instance

/-- A template item whose field (if it is a placeholder) exists in the
field dict. -/
def itemFieldDefined (fields : List (String × ℚ)) : TemplateItem → Prop
  | TemplateItem.lit _ => True
  | TemplateItem.field n _ => (lookupField fields n).isSome

instance (fields : List (String × ℚ)) (i : TemplateItem) :
    Decidable (itemFieldDefined fields i) := by
  cases i <;> simp only [itemFieldDefined] <;> infer_instance

/-- Lookup is unchanged by an append under a different name. -/
theorem lookupStore_appendPair_ne (s : Store) (name m : String) (p : TimePair)
    (hne : m ≠ name) : lookupStore (appendPair s name p) m = lookupStore s m := by
  induction s with
  | nil => simp [appendPair, lookupStore, Ne.symm hne]
  | cons e rest ih =>
      by_cases he : e.1 = name
      · simp [appendPair, he, lookupStore, Ne.symm hne]
      · by_cases hm : e.1 = m <;>
          simp [appendPair, he, lookupStore, hm, ih, hne]

/-- Appending under a present name extends its list by the pair. -/
theorem lookupStore_appendPair_some (s : Store) (name : String) (p : TimePair)
    (l : List TimePair) (h : lookupStore s name = some l) :
    lookupStore (appendPair s name p) name = some (l ++ [p]) := by
  induction s with
  | nil => simp [lookupStore] at h
  | cons e rest ih =>
      by_cases he : e.1 = name
      · simp [lookupStore, he] at h
        simp [appendPair, he, lookupStore, h]
      · simp [lookupStore, he] at h
        simp [appendPair, he, lookupStore, ih h]

/-- Appending under an absent name creates a singleton list for it. -/
theorem lookupStore_appendPair_none (s : Store) (name : String) (p : TimePair)
    (h : lookupStore s name = none) :
    lookupStore (appendPair s name p) name = some [p] := by
  induction s with
  | nil => simp [appendPair, lookupStore]
  | cons e rest ih =>
      by_cases he : e.1 = name
      · simp [lookupStore, he] at h
      · simp [lookupStore, he] at h
        simp [appendPair, he, lookupStore, ih h]

/-- Recording a batch of pairs under a present name concatenates them. -/
theorem lookupStore_recordIntervals_some (recs : List TimePair) (s : Store)
    (name : String) (l : List TimePair) (h : lookupStore s name = some l) :
    lookupStore (recordIntervals s name recs) name = some (l ++ recs) := by
  induction recs generalizing s l with
  | nil => simpa [recordIntervals]
  | cons p rest ih =>
      have step := lookupStore_appendPair_some s name p l h
      have := ih (appendPair s name p) (l ++ [p]) step
      simpa [recordIntervals] using this

/-- Recording a non-empty batch of pairs under an absent name stores exactly
them (with zero recordings the name is never created at all). -/
theorem lookupStore_recordIntervals_none (recs : List TimePair) (s : Store)
    (name : String) (h : lookupStore s name = none) (hne : recs ≠ []) :
    lookupStore (recordIntervals s name recs) name = some recs := by
  cases recs with
  | nil => exact absurd rfl hne
  | cons p rest =>
      have step := lookupStore_appendPair_none s name p h
      have := lookupStore_recordIntervals_some rest (appendPair s name p)
        name [p] step
      simpa [recordIntervals] using this

/-- `extendEntry` lookup at the extended name, when present. -/
theorem lookupStore_extendEntry_self (acc : Store) (n : String)
    (l a : List TimePair) (h : lookupStore acc n = some a) :
    lookupStore (extendEntry acc n l) n = some (a ++ l) := by
  induction acc with
  | nil => simp [lookupStore] at h
  | cons f rest ih =>
      by_cases hf : f.1 = n
      · simp [lookupStore, hf] at h
        simp [extendEntry, hf, lookupStore, h]
      · simp [lookupStore, hf] at h
        simp [extendEntry, hf, lookupStore, ih h]

/-- `extendEntry` lookup at any other name is unchanged. -/
theorem lookupStore_extendEntry_ne (acc : Store) (n : String)
    (l : List TimePair) (m : String) (hm : m ≠ n) :
    lookupStore (extendEntry acc n l) m = lookupStore acc m := by
  induction acc with
  | nil => simp [extendEntry]
  | cons f rest ih =>
      by_cases hf : f.1 = n
      · simp [extendEntry, hf, lookupStore, Ne.symm hm]
      · by_cases hfm : f.1 = m <;>
          simp [extendEntry, hf, lookupStore, hfm, ih, hm]

/-- Lookup in `acc ++ [e]`: the old entries shadow the new one. -/
theorem lookupStore_append_single (acc : Store) (e : String × List TimePair)
    (m : String) :
    lookupStore (acc ++ [e]) m =
      match lookupStore acc m with
      | some l => some l
      | none => if e.1 = m then some e.2 else none := by
  induction acc with
  | nil => simp [lookupStore]
  | cons f rest ih =>
      by_cases hf : f.1 = m <;> simp [lookupStore, hf, ih]

/-- `mergeStep` lookup at the entry's own name: its pairs are appended after
whatever was there (an absent name adopts the entry's list whole). -/
theorem lookupStore_mergeStep_self (acc : Store) (e : String × List TimePair) :
    lookupStore (mergeStep acc e) e.1 =
      some ((lookupStore acc e.1).getD [] ++ e.2) := by
  cases h : lookupStore acc e.1 with
  | some a =>
      simp only [mergeStep, h, Option.isSome_some, if_true]
      simpa using lookupStore_extendEntry_self acc e.1 e.2 a h
  | none =>
      simp only [mergeStep, h, Option.isSome_none, Bool.false_eq_true,
        if_false]
      rw [lookupStore_append_single]
      simp [h]

/-- `mergeStep` lookup at any other name is unchanged. -/
theorem lookupStore_mergeStep_ne (acc : Store) (e : String × List TimePair)
    (m : String) (hm : m ≠ e.1) :
    lookupStore (mergeStep acc e) m = lookupStore acc m := by
  unfold mergeStep
  by_cases hsome : (lookupStore acc e.1).isSome
  · rw [if_pos hsome]
    exact lookupStore_extendEntry_ne acc e.1 e.2 m hm
  · rw [if_neg hsome]
    rw [lookupStore_append_single]
    cases h : lookupStore acc m with
    | some l => simp
    | none => simp [Ne.symm hm]

/-- A name outside the key list never resolves. -/
theorem lookupStore_eq_none_of_not_mem_keys (s : Store) (name : String)
    (h : name ∉ s.map Prod.fst) : lookupStore s name = none := by
  induction s with
  | nil => rfl
  | cons e rest ih =>
      simp only [List.map_cons, List.mem_cons, not_or] at h
      simp [lookupStore, Ne.symm h.1, ih h.2]

/-- Full characterisation of `merge` per name, assuming `other.pairs` has
unique keys (as every Python `dict` does): a name in both gets the
concatenation with `other`'s pairs after `self`'s, a name only in `other` is
adopted whole, a name absent from `other` is untouched. -/
theorem lookupStore_merge (other : Store) (self : Store) (name : String)
    (hnd : keysNodup other) :
    lookupStore (merge self other) name =
      match lookupStore other name with
      | none => lookupStore self name
      | some b => some ((lookupStore self name).getD [] ++ b) := by
  induction other generalizing self with
  | nil => simp [merge, lookupStore]
  | cons e rest ih =>
      have hnd' : keysNodup rest := by
        simpa [keysNodup] using (List.nodup_cons.mp hnd).2
      have hmem : e.1 ∉ rest.map Prod.fst := by
        simpa [keysNodup] using (List.nodup_cons.mp hnd).1
      have hfold : merge self (e :: rest) = merge (mergeStep self e) rest := by
        simp [merge]
      by_cases he : e.1 = name
      · subst he
        have hrest : lookupStore rest e.1 = none :=
          lookupStore_eq_none_of_not_mem_keys rest e.1 hmem
        rw [hfold, ih (mergeStep self e) hnd', hrest]
        simp [lookupStore, lookupStore_mergeStep_self]
      · rw [hfold, ih (mergeStep self e) hnd']
        rw [lookupStore_mergeStep_ne self e name (Ne.symm he)]
        simp [lookupStore, he]

/-- `mergeLoop` never writes the second component (`other`'s state). -/
theorem mergeLoop_snd (entries : List (String × List TimePair))
    (st : Store × Store) : (mergeLoop st entries).2 = st.2 := by
  induction entries generalizing st with
  | nil => rfl
  | cons e rest ih => simp [mergeLoop, ih]

/-- The first component of `mergeLoop` is the `merge` fold. -/
theorem mergeLoop_fst (entries : List (String × List TimePair))
    (st : Store × Store) :
    (mergeLoop st entries).1 = entries.foldl mergeStep st.1 := by
  induction entries generalizing st with
  | nil => rfl
  | cons e rest ih => simp [mergeLoop, ih, List.foldl_cons]

/-- C1: the claim says a failing wrapped block still gets its
`(startTime, endTime)` pair appended.  At the concrete input — an empty
timer, one interval named "reading" from time 0 to 1 whose block raises —
the store stays empty: nothing is appended on the failure path. -/
theorem claim_C1_counterexample :
    interval ([] : Store) "reading" 0 1 false = ([] : Store) ∧
    interval ([] : Store) "reading" 0 1 false ≠
      [("reading", [((0 : ℚ), (1 : ℚ))])] ∧
    getDurationsForName (interval ([] : Store) "reading" 0 1 false)
      "reading" = none := by
  refine ⟨rfl, ?_, rfl⟩
  decide

/-- C1 (amended): a scoped interval records its pair only when the wrapped
block completes normally; when the block raises, the store is left unchanged
(the generator-based context manager has no cleanup around its `yield`, so
the append after the `yield` never runs) and the failure propagates with
nothing recorded. -/
theorem claim_C1 (s : Store) (name : String) (t0 t1 : ℚ) :
    interval s name t0 t1 false = s ∧
    interval s name t0 t1 true = appendPair s name (t0, t1) := by
  exact ⟨rfl, rfl⟩

/-- C2: after exactly the non-empty batch `recs` of completed intervals is
recorded under a previously unrecorded name, `getDurationsForName` returns
exactly one duration per recorded pair, each equal to `end - start`, in
recording order. -/
theorem claim_C2 (s : Store) (name : String) (recs : List TimePair)
    (habs : lookupStore s name = none) (hne : recs ≠ []) :
    getDurationsForName (recordIntervals s name recs) name =
      some (recs.map (fun p => p.2 - p.1)) ∧
    (recs.map (fun p => p.2 - p.1)).length = recs.length := by
  refine ⟨?_, by simp⟩
  unfold getDurationsForName
  rw [lookupStore_recordIntervals_none recs s name habs hne]

/-- C2 witness: three intervals named "reading" with durations 1, 2, 4. -/
theorem claim_C2_witness :
    getDurationsForName
      (recordIntervals ([] : Store) "reading"
        [((0 : ℚ), (1 : ℚ)), ((2 : ℚ), (4 : ℚ)), ((5 : ℚ), (9 : ℚ))])
      "reading" = some [(1 : ℚ), (2 : ℚ), (4 : ℚ)] := by
  have h := claim_C2 [] "reading"
    [((0 : ℚ), (1 : ℚ)), ((2 : ℚ), (4 : ℚ)), ((5 : ℚ), (9 : ℚ))]
    rfl (by decide)
  exact h.1.trans (by norm_num)

/-- C3: per-name content of `self.merge(other)` (with `other.pairs` a real
dict, i.e. unique keys): a name in both maps to `self`'s pairs followed by
`other`'s, a name only in `other` maps to `other`'s pairs, and a name absent
from `other` keeps `self`'s value. -/
theorem claim_C3 (self other : Store) (name : String)
    (hnd : keysNodup other) :
    lookupStore (merge self other) name =
      match lookupStore other name, lookupStore self name with
      | none, r => r
      | some b, some a => some (a ++ b)
      | some b, none => some b := by
  rw [lookupStore_merge other self name hnd]
  cases lookupStore other name <;> cases lookupStore self name <;> simp

/-- C3 witness: `self` has names "a", "c"; `other` has "a", "b"; after the
merge, "a" holds self's pair then other's. -/
theorem claim_C3_witness :
    lookupStore
      (merge [("a", [((0 : ℚ), (1 : ℚ))]), ("c", [((0 : ℚ), (2 : ℚ))])]
        [("a", [((3 : ℚ), (4 : ℚ))]), ("b", [((5 : ℚ), (6 : ℚ))])]) "a" =
      some [((0 : ℚ), (1 : ℚ)), ((3 : ℚ), (4 : ℚ))] := by
  have h := claim_C3
    [("a", [((0 : ℚ), (1 : ℚ))]), ("c", [((0 : ℚ), (2 : ℚ))])]
    [("a", [((3 : ℚ), (4 : ℚ))]), ("b", [((5 : ℚ), (6 : ℚ))])] "a"
    (by decide)
  exact h.trans (by decide)

/-- C6: a name never recorded yields the explicit absent signal `none`,
never the empty list (or any other list). -/
theorem claim_C6 (s : Store) (name : String)
    (h : lookupStore s name = none) :
    getDurationsForName s name = none ∧
    ∀ l : List ℚ, getDurationsForName s name ≠ some l := by
  have hd : getDurationsForName s name = none := by
    unfold getDurationsForName
    rw [h]
  exact ⟨hd, fun l hl => by rw [hd] at hl; exact Option.noConfusion hl⟩

/-- C6 witness: a timer that has recorded only "other" knows nothing about
"reading". -/
theorem claim_C6_witness :
    getDurationsForName [("other", [((0 : ℚ), (1 : ℚ))])] "reading" =
      none := by
  exact (claim_C6 [("other", [((0 : ℚ), (1 : ℚ))])] "reading" (by decide)).1

/-- C8: `__getstate__` exports exactly the `pairs` mapping (the lock is
popped, never serialised), and `__setstate__` of that state rebuilds an
object with the same recorded mapping and whatever freshly allocated lock
`threading.Lock()` returned — export then import is the identity on the
recorded data. -/
theorem claim_C8 (t : TimersObj) (freshLockId : Nat) :
    getstate t = [("pairs", AttrVal.pairsVal t.pairs)] ∧
    (setstate (getstate t) freshLockId).pairs = t.pairs ∧
    (setstate (getstate t) freshLockId).lockId = freshLockId := by
  refine ⟨?_, rfl, rfl⟩
  rfl

/-- C9: any interleaving of `N * M` lock-protected recordings under one
fresh name — the single lock serialises the lazy-creation-plus-append
critical sections into some order `recs` — leaves exactly `N * M` pairs for
that name: no lost updates. -/
theorem claim_C9 (s : Store) (name : String) (recs : List TimePair)
    (N M : Nat) (habs : lookupStore s name = none)
    (hlen : recs.length = N * M) (hpos : 0 < N * M) :
    ∃ l, lookupStore (recordIntervals s name recs) name = some l ∧
      l.length = N * M := by
  have hne : recs ≠ [] := by
    intro hnil
    rw [hnil] at hlen
    simp only [List.length_nil] at hlen
    omega
  exact ⟨recs, lookupStore_recordIntervals_none recs s name habs hne, hlen⟩

/-- C9 witness: 2 threads × 3 recordings each, in one arbitrary
serialisation order, give 6 recorded pairs. -/
theorem claim_C9_witness :
    ∃ l, lookupStore
        (recordIntervals ([] : Store) "work"
          [((0 : ℚ), (1 : ℚ)), ((0 : ℚ), (2 : ℚ)), ((1 : ℚ), (2 : ℚ)),
           ((1 : ℚ), (3 : ℚ)), ((2 : ℚ), (3 : ℚ)), ((2 : ℚ), (4 : ℚ))])
        "work" = some l ∧ l.length = 2 * 3 := by
  exact claim_C9 [] "work"
    [((0 : ℚ), (1 : ℚ)), ((0 : ℚ), (2 : ℚ)), ((1 : ℚ), (2 : ℚ)),
     ((1 : ℚ), (3 : ℚ)), ((2 : ℚ), (3 : ℚ)), ((2 : ℚ), (4 : ℚ))]
    2 3 rfl (by decide) (by decide)

/-- C10: `self.merge(other)` only reads from `other`: threading both
objects' states through every loop iteration, `other`'s state after the call
is exactly its state before, while `self` receives the merged data. -/
theorem claim_C10 (self other : Store) :
    (mergeBoth self other).2 = other ∧
    (mergeBoth self other).1 = merge self other := by
  constructor
  · exact mergeLoop_snd other (self, other)
  · rw [mergeBoth, mergeLoop_fst other (self, other)]
    rfl

/-- A running `min` fold never exceeds its initial accumulator. -/
theorem foldl_min_le_init (xs : List ℚ) (x : ℚ) : xs.foldl min x ≤ x := by
  induction xs generalizing x with
  | nil => exact le_refl x
  | cons y ys ih => exact le_trans (ih (min x y)) (min_le_left x y)

/-- A running `min` fold is below every list element. -/
theorem foldl_min_le_mem (xs : List ℚ) (x y : ℚ) (hy : y ∈ xs) :
    xs.foldl min x ≤ y := by
  induction xs generalizing x with
  | nil => cases hy
  | cons z zs ih =>
      rcases List.mem_cons.mp hy with h | h
      · subst h
        exact le_trans (foldl_min_le_init zs (min x y)) (min_le_right x y)
      · exact ih (min x z) h

/-- A running `min` fold returns the accumulator or a list element. -/
theorem foldl_min_mem (xs : List ℚ) (x : ℚ) : xs.foldl min x ∈ x :: xs := by
  induction xs generalizing x with
  | nil => exact List.mem_singleton.mpr rfl
  | cons y ys ih =>
      have h := ih (min x y)
      rw [List.foldl_cons]
      rcases List.mem_cons.mp h with h' | h'
      · rcases min_choice x y with hc | hc
        · rw [h', hc]
          exact List.mem_cons_self x (y :: ys)
        · rw [h', hc]
          exact List.mem_cons.mpr (Or.inr (List.mem_cons_self y ys))
      · exact List.mem_cons.mpr (Or.inr (List.mem_cons.mpr (Or.inr h')))

/-- A running `max` fold is above its initial accumulator. -/
theorem init_le_foldl_max (xs : List ℚ) (x : ℚ) : x ≤ xs.foldl max x := by
  induction xs generalizing x with
  | nil => exact le_refl x
  | cons y ys ih => exact le_trans (le_max_left x y) (ih (max x y))

/-- A running `max` fold is above every list element. -/
theorem mem_le_foldl_max (xs : List ℚ) (x y : ℚ) (hy : y ∈ xs) :
    y ≤ xs.foldl max x := by
  induction xs generalizing x with
  | nil => cases hy
  | cons z zs ih =>
      rcases List.mem_cons.mp hy with h | h
      · subst h
        exact le_trans (le_max_right x y) (init_le_foldl_max zs (max x y))
      · exact ih (max x z) h

/-- A running `max` fold returns the accumulator or a list element. -/
theorem foldl_max_mem (xs : List ℚ) (x : ℚ) : xs.foldl max x ∈ x :: xs := by
  induction xs generalizing x with
  | nil => exact List.mem_singleton.mpr rfl
  | cons y ys ih =>
      have h := ih (max x y)
      rw [List.foldl_cons]
      rcases List.mem_cons.mp h with h' | h'
      · rcases max_choice x y with hc | hc
        · rw [h', hc]
          exact List.mem_cons_self x (y :: ys)
        · rw [h', hc]
          exact List.mem_cons.mpr (Or.inr (List.mem_cons_self y ys))
      · exact List.mem_cons.mpr (Or.inr (List.mem_cons.mpr (Or.inr h')))

/-- `arrMin` of a non-empty list is an element of it. -/
theorem arrMin_mem (ds : List ℚ) (h : ds ≠ []) : arrMin ds ∈ ds := by
  cases ds with
  | nil => exact absurd rfl h
  | cons x xs => simpa [arrMin] using foldl_min_mem xs x

/-- `arrMin` is below every element. -/
theorem arrMin_le (ds : List ℚ) (y : ℚ) (hy : y ∈ ds) : arrMin ds ≤ y := by
  cases ds with
  | nil => cases hy
  | cons x xs =>
      rcases List.mem_cons.mp hy with h | h
      · subst h
        simpa [arrMin] using foldl_min_le_init xs y
      · simpa [arrMin] using foldl_min_le_mem xs x y h

/-- `arrMax` of a non-empty list is an element of it. -/
theorem arrMax_mem (ds : List ℚ) (h : ds ≠ []) : arrMax ds ∈ ds := by
  cases ds with
  | nil => exact absurd rfl h
  | cons x xs => simpa [arrMax] using foldl_max_mem xs x

/-- Every element is below `arrMax`. -/
theorem le_arrMax (ds : List ℚ) (y : ℚ) (hy : y ∈ ds) : y ≤ arrMax ds := by
  cases ds with
  | nil => cases hy
  | cons x xs =>
      rcases List.mem_cons.mp hy with h | h
      · subst h
        simpa [arrMax] using init_le_foldl_max xs y
      · simpa [arrMax] using mem_le_foldl_max xs x y h

/-- `pSort` sorts ascending. -/
theorem pSort_sorted (xs : List ℚ) :
    (pSort xs).Sorted (fun a b => a ≤ b) :=
  List.sorted_insertionSort (fun a b => a ≤ b) xs

/-- `pSort` permutes its input. -/
theorem pSort_perm (xs : List ℚ) : List.Perm (pSort xs) xs :=
  List.perm_insertionSort (fun a b => a ≤ b) xs

/-- `pSort` keeps the length. -/
theorem length_pSort (xs : List ℚ) : (pSort xs).length = xs.length :=
  (pSort_perm xs).length_eq

/-- `pSort` keeps the members. -/
theorem mem_pSort (xs : List ℚ) (y : ℚ) : y ∈ pSort xs ↔ y ∈ xs :=
  (pSort_perm xs).mem_iff

/-- In a sorted list, `getD` is monotone over in-range indices. -/
theorem sorted_getD_mono (l : List ℚ) (hs : l.Sorted (fun a b => a ≤ b))
    (i j : Nat) (hij : i ≤ j) (hj : j < l.length) :
    l.getD i 0 ≤ l.getD j 0 := by
  have hi : i < l.length := lt_of_le_of_lt hij hj
  rw [List.getD_eq_get l 0 hi, List.getD_eq_get l 0 hj]
  exact hs.rel_get_of_le (by exact hij)

/-- A non-empty list contains its default head. -/
theorem headD_mem (l : List ℚ) (h : l ≠ []) : l.headD 0 ∈ l := by
  cases l with
  | nil => exact absurd rfl h
  | cons x xs => exact List.mem_cons_self x xs

/-- The head of a sorted list is below every element. -/
theorem sorted_headD_le (l : List ℚ) (hs : l.Sorted (fun a b => a ≤ b))
    (x : ℚ) (hx : x ∈ l) : l.headD 0 ≤ x := by
  cases l with
  | nil => cases hx
  | cons y ys =>
      rcases List.mem_cons.mp hx with h | h
      · subst h; exact le_refl x
      · exact List.rel_of_sorted_cons hs x h

/-- A non-empty list contains its default last element. -/
theorem getLastD_mem (l : List ℚ) (h : l ≠ []) : l.getLastD 0 ∈ l := by
  cases l with
  | nil => exact absurd rfl h
  | cons x xs =>
      rw [List.getLastD_cons]
      exact List.getLastD_mem_cons xs x

/-- Every element of a sorted list is below its default last element. -/
theorem sorted_le_getLastD (l : List ℚ) (hs : l.Sorted (fun a b => a ≤ b))
    (x : ℚ) (hx : x ∈ l) : x ≤ l.getLastD 0 := by
  induction l with
  | nil => cases hx
  | cons y ys ih =>
      rw [List.getLastD_cons]
      cases ys with
      | nil =>
          rcases List.mem_cons.mp hx with h | h
          · subst h; exact le_refl x
          · cases h
      | cons z zs =>
          have hs' : (z :: zs).Sorted (fun a b => a ≤ b) :=
            List.Sorted.of_cons hs
          rcases List.mem_cons.mp hx with h | h
          · subst h
            have hlast : (z :: zs).getLastD 0 ∈ z :: zs :=
              getLastD_mem (z :: zs) (by simp)
            exact le_trans (List.rel_of_sorted_cons hs _ (List.mem_cons_self z zs))
              (sorted_headD_le (z :: zs) hs' _ hlast)
          · exact ih hs' h

/-- The default head of a list is its `getD` at index 0. -/
theorem headD_eq_getD_zero (l : List ℚ) : l.headD 0 = l.getD 0 0 := by
  cases l <;> rfl

/-- The default last element of a non-empty list, as a `getD`, for any
default. -/
theorem getLastD_cons_eq_getD (xs : List ℚ) (x d : ℚ) :
    (x :: xs).getLastD d = (x :: xs).getD xs.length 0 := by
  induction xs generalizing x d with
  | nil => rfl
  | cons y ys ih =>
      rw [List.getLastD_cons, ih y x]
      simp [List.getD_cons_succ]

/-- The default last element is the `getD` at the final index. -/
theorem getLastD_eq_getD (l : List ℚ) :
    l.getLastD 0 = l.getD (l.length - 1) 0 := by
  cases l with
  | nil => rfl
  | cons x xs => simpa using getLastD_cons_eq_getD xs x 0

/-- `arrMin` of a non-empty list is the head of its ascending sort. -/
theorem arrMin_eq_pSort_headD (ds : List ℚ) (h : ds ≠ []) :
    arrMin ds = (pSort ds).headD 0 := by
  have hps : pSort ds ≠ [] := by
    intro hc
    have := length_pSort ds
    rw [hc] at this
    simp at this
    exact h (List.length_eq_zero.mp this.symm)
  apply le_antisymm
  · exact arrMin_le ds _ ((mem_pSort ds _).mp (headD_mem _ hps))
  · exact sorted_headD_le _ (pSort_sorted ds) _
      ((mem_pSort ds _).mpr (arrMin_mem ds h))

/-- `arrMax` of a non-empty list is the last element of its ascending
sort. -/
theorem arrMax_eq_pSort_getLastD (ds : List ℚ) (h : ds ≠ []) :
    arrMax ds = (pSort ds).getLastD 0 := by
  have hps : pSort ds ≠ [] := by
    intro hc
    have := length_pSort ds
    rw [hc] at this
    simp at this
    exact h (List.length_eq_zero.mp this.symm)
  apply le_antisymm
  · exact sorted_le_getLastD _ (pSort_sorted ds) _
      ((mem_pSort ds _).mpr (arrMax_mem ds h))
  · exact le_arrMax ds _ ((mem_pSort ds _).mp (getLastD_mem _ hps))

/-- The interpolated value at rank `h` lies between the two neighbouring
order statistics (and the upper index is in range). -/
theorem interpAt_bounds (a : List ℚ) (ha : a.Sorted (fun p q => p ≤ q))
    (h : ℚ) (h0 : 0 ≤ h) (hub : h ≤ (a.length : ℚ) - 1) (hlen : 1 ≤ a.length) :
    a.getD (Int.toNat ⌊h⌋) 0 ≤ interpAt a h ∧
    interpAt a h ≤ a.getD (Int.toNat ⌈h⌉) 0 ∧
    Int.toNat ⌈h⌉ < a.length := by
  have hF0 : 0 ≤ ⌊h⌋ := Int.floor_nonneg.mpr h0
  have hFC : ⌊h⌋ ≤ ⌈h⌉ := Int.floor_le_ceil h
  have hCub : ⌈h⌉ ≤ (a.length : ℤ) - 1 := by
    apply Int.ceil_le.mpr
    push_cast
    exact hub
  have hhilen : Int.toNat ⌈h⌉ < a.length := by omega
  have hlohi : Int.toNat ⌊h⌋ ≤ Int.toNat ⌈h⌉ := Int.toNat_le_toNat hFC
  have hloQ : ((Int.toNat ⌊h⌋ : ℕ) : ℚ) = ((⌊h⌋ : ℤ) : ℚ) := by
    exact_mod_cast congrArg (fun z : ℤ => (z : ℚ)) (Int.toNat_of_nonneg hF0)
  have hfr0 : 0 ≤ h - ((Int.toNat ⌊h⌋ : ℕ) : ℚ) := by
    rw [hloQ]
    linarith [Int.floor_le h]
  have hfr1 : h - ((Int.toNat ⌊h⌋ : ℕ) : ℚ) ≤ 1 := by
    rw [hloQ]
    have := Int.lt_floor_add_one h
    push_cast at this
    linarith
  have halohi : a.getD (Int.toNat ⌊h⌋) 0 ≤ a.getD (Int.toNat ⌈h⌉) 0 :=
    sorted_getD_mono a ha _ _ hlohi hhilen
  unfold interpAt
  refine ⟨?_, ?_, hhilen⟩
  · nlinarith [hfr0, hfr1, halohi]
  · nlinarith [hfr0, hfr1, halohi]

/-- The linear interpolation between closest ranks in a sorted list is
monotone in the fractional rank. -/
theorem interpAt_mono (a : List ℚ) (ha : a.Sorted (fun p q => p ≤ q))
    (h₁ h₂ : ℚ) (h0 : 0 ≤ h₁) (h12 : h₁ ≤ h₂)
    (hub : h₂ ≤ (a.length : ℚ) - 1) (hlen : 1 ≤ a.length) :
    interpAt a h₁ ≤ interpAt a h₂ := by
  have h02 : 0 ≤ h₂ := le_trans h0 h12
  have hub1 : h₁ ≤ (a.length : ℚ) - 1 := le_trans h12 hub
  obtain ⟨hb1lo, hb1hi, hc1len⟩ := interpAt_bounds a ha h₁ h0 hub1 hlen
  obtain ⟨hb2lo, hb2hi, hc2len⟩ := interpAt_bounds a ha h₂ h02 hub hlen
  rcases le_or_lt ⌈h₁⌉ ⌊h₂⌋ with hc | hc
  · have h2lolen : Int.toNat ⌊h₂⌋ < a.length := by
      have hfc2 : ⌊h₂⌋ ≤ ⌈h₂⌉ := Int.floor_le_ceil h₂
      omega
    have hmid : a.getD (Int.toNat ⌈h₁⌉) 0 ≤ a.getD (Int.toNat ⌊h₂⌋) 0 :=
      sorted_getD_mono a ha _ _ (Int.toNat_le_toNat hc) h2lolen
    exact le_trans hb1hi (le_trans hmid hb2lo)
  · have hF12 : ⌊h₁⌋ ≤ ⌊h₂⌋ := Int.floor_mono h12
    have hC1 : ⌈h₁⌉ ≤ ⌊h₁⌋ + 1 := Int.ceil_le_floor_add_one h₁
    have hFeq : ⌊h₂⌋ = ⌊h₁⌋ := by omega
    have hCeq1 : ⌈h₁⌉ = ⌊h₁⌋ + 1 := by omega
    have hC2cases : ⌈h₂⌉ = ⌊h₂⌋ ∨ ⌈h₂⌉ = ⌊h₂⌋ + 1 := by
      have hfc2 : ⌊h₂⌋ ≤ ⌈h₂⌉ := Int.floor_le_ceil h₂
      have hcf2 : ⌈h₂⌉ ≤ ⌊h₂⌋ + 1 := Int.ceil_le_floor_add_one h₂
      omega
    rcases hC2cases with hC2 | hC2
    · have hle : h₂ ≤ ((⌊h₂⌋ : ℤ) : ℚ) := by
        have hlc := Int.le_ceil h₂
        have hcast : ((⌈h₂⌉ : ℤ) : ℚ) = ((⌊h₂⌋ : ℤ) : ℚ) := by
          exact_mod_cast hC2
        linarith
      have hint : h₂ = ((⌊h₂⌋ : ℤ) : ℚ) := le_antisymm hle (Int.floor_le h₂)
      have hcast2 : ((⌊h₂⌋ : ℤ) : ℚ) = ((⌊h₁⌋ : ℤ) : ℚ) := by
        exact_mod_cast hFeq
      have heq : h₁ = h₂ := by
        have hfl1 := Int.floor_le h₁
        linarith
      rw [heq]
    · have hCeq2 : ⌈h₂⌉ = ⌈h₁⌉ := by omega
      have hlo : Int.toNat ⌊h₂⌋ = Int.toNat ⌊h₁⌋ := by rw [hFeq]
      have hhi : Int.toNat ⌈h₂⌉ = Int.toNat ⌈h₁⌉ := by rw [hCeq2]
      have halohi : a.getD (Int.toNat ⌊h₁⌋) 0 ≤ a.getD (Int.toNat ⌈h₁⌉) 0 :=
        sorted_getD_mono a ha _ _
          (Int.toNat_le_toNat (Int.floor_le_ceil h₁)) hc1len
      unfold interpAt
      rw [hlo, hhi]
      nlinarith [halohi, h12]

/-- `percentile` is monotone in `q` on `[0, 100]` (non-empty data). -/
theorem percentile_mono (ds : List ℚ) (hne : ds ≠ []) (q₁ q₂ : ℚ)
    (h0 : 0 ≤ q₁) (h12 : q₁ ≤ q₂) (h100 : q₂ ≤ 100) :
    percentile ds q₁ ≤ percentile ds q₂ := by
  have hpos : 0 < ds.length := List.length_pos.mpr hne
  have hlen : 1 ≤ (pSort ds).length := by
    rw [length_pSort]
    exact hpos
  have hn1 : (0 : ℚ) ≤ (ds.length : ℚ) - 1 := by
    have h1 : (1 : ℚ) ≤ (ds.length : ℚ) := by exact_mod_cast hpos
    linarith
  unfold percentile
  apply interpAt_mono (pSort ds) (pSort_sorted ds)
  · exact mul_nonneg (by linarith) hn1
  · exact mul_le_mul_of_nonneg_right (by linarith) hn1
  · rw [length_pSort]
    calc q₂ / 100 * ((ds.length : ℚ) - 1)
        ≤ 1 * ((ds.length : ℚ) - 1) :=
          mul_le_mul_of_nonneg_right (by linarith) hn1
      _ = (ds.length : ℚ) - 1 := one_mul _
  · exact hlen

/-- Every interpolated percentile of non-empty data lies between the least
and greatest order statistics. -/
theorem percentile_between (ds : List ℚ) (hne : ds ≠ []) (q : ℚ)
    (h0 : 0 ≤ q) (h100 : q ≤ 100) :
    (pSort ds).headD 0 ≤ percentile ds q ∧
    percentile ds q ≤ (pSort ds).getLastD 0 := by
  have hpos : 0 < ds.length := List.length_pos.mpr hne
  have hlen : 1 ≤ (pSort ds).length := by
    rw [length_pSort]
    exact hpos
  have hn1 : (0 : ℚ) ≤ (ds.length : ℚ) - 1 := by
    have h1 : (1 : ℚ) ≤ (ds.length : ℚ) := by exact_mod_cast hpos
    linarith
  have hh0 : 0 ≤ q / 100 * ((ds.length : ℚ) - 1) :=
    mul_nonneg (by linarith) hn1
  have hhub : q / 100 * ((ds.length : ℚ) - 1) ≤ ((pSort ds).length : ℚ) - 1 := by
    rw [length_pSort]
    calc q / 100 * ((ds.length : ℚ) - 1)
        ≤ 1 * ((ds.length : ℚ) - 1) :=
          mul_le_mul_of_nonneg_right (by linarith) hn1
      _ = (ds.length : ℚ) - 1 := one_mul _
  obtain ⟨hlo, hhi, hhilen⟩ :=
    interpAt_bounds (pSort ds) (pSort_sorted ds)
      (q / 100 * ((ds.length : ℚ) - 1)) hh0 hhub hlen
  have hlolen : Int.toNat ⌊q / 100 * ((ds.length : ℚ) - 1)⌋ < (pSort ds).length := by
    have := Int.toNat_le_toNat
      (Int.floor_le_ceil (q / 100 * ((ds.length : ℚ) - 1)))
    omega
  constructor
  · rw [headD_eq_getD_zero]
    exact le_trans
      (sorted_getD_mono (pSort ds) (pSort_sorted ds) 0 _ (Nat.zero_le _) hlolen)
      hlo
  · rw [getLastD_eq_getD]
    exact le_trans hhi
      (sorted_getD_mono (pSort ds) (pSort_sorted ds) _ _ (by omega) (by omega))

/-- The arithmetic mean of non-empty data lies between its min and max. -/
theorem mean_bounds (ds : List ℚ) (h : ds ≠ []) :
    arrMin ds ≤ ds.sum / (ds.length : ℚ) ∧
    ds.sum / (ds.length : ℚ) ≤ arrMax ds := by
  have hlen : 0 < ds.length := List.length_pos.mpr h
  have hlenQ : (0 : ℚ) < (ds.length : ℚ) := by exact_mod_cast hlen
  have hmin : (ds.length : ℚ) * arrMin ds ≤ ds.sum := by
    have := List.card_nsmul_le_sum ds (arrMin ds) (fun x hx => arrMin_le ds x hx)
    simpa [nsmul_eq_mul] using this
  have hmax : ds.sum ≤ (ds.length : ℚ) * arrMax ds := by
    have := List.sum_le_card_nsmul ds (arrMax ds) (fun x hx => le_arrMax ds x hx)
    simpa [nsmul_eq_mul] using this
  constructor
  · rw [le_div_iff hlenQ]
    linarith [mul_comm (arrMin ds) ((ds.length : ℚ))]
  · rw [div_le_iff hlenQ]
    linarith [mul_comm (arrMax ds) ((ds.length : ℚ))]

/-- Looking up a key in a key-preserving map of the store. -/
theorem lookupSummary_map (s : Store) (F : String → SummaryStats)
    (n : String) (hsome : (lookupStore s n).isSome) :
    lookupSummary (s.map (fun e => (e.1, F e.1))) n = some (F n) := by
  induction s with
  | nil => simp [lookupStore] at hsome
  | cons e rest ih =>
      by_cases he : e.1 = n
      · simp [lookupSummary, he]
      · simp only [lookupStore, he, if_neg he] at hsome
        simpa [lookupSummary, he] using ih hsome

/-- The summary dict entry for a recorded name is `summarize` of its
durations. -/
theorem lookupSummary_makeSummaryDict (s : Store) (n : String)
    (ps : List TimePair) (h : lookupStore s n = some ps) :
    lookupSummary (makeSummaryDict s) n = some (summarize (durations ps)) := by
  have hsome : (lookupStore s n).isSome := by rw [h]; rfl
  have hmain := lookupSummary_map s
    (fun m => summarize ((getDurationsForName s m).getD [])) n hsome
  have hdur : getDurationsForName s n = some (durations ps) := by
    unfold getDurationsForName durations
    rw [h]
  unfold makeSummaryDict
  rw [hmain]
  show some (summarize ((getDurationsForName s n).getD [])) =
    some (summarize (durations ps))
  rw [hdur, Option.getD_some]

/-- `summarize` agrees with the spec-worded statistics record on non-empty
duration lists: numpy's array min/max are exactly the extreme order
statistics of the sorted data, and all other fields coincide directly. -/
theorem summarize_eq_specStats (ds : List ℚ) (h : ds ≠ []) :
    summarize ds = specStats ds := by
  unfold summarize specStats
  rw [arrMin_eq_pSort_headD ds h, arrMax_eq_pSort_getLastD ds h]

/-- C4: `makeSummaryDict` has exactly the store's names as its domain (in
particular an empty timer yields an empty summary), and the record for a
recorded name with non-empty pair list is exactly the spec's statistics of
its durations: total = sum, min/max = least/greatest, mean = arithmetic
mean, quartiles = interpolated 25th/50th/75th percentiles, count =
length. -/
theorem claim_C4 (s : Store) (n : String) (ps : List TimePair)
    (h : lookupStore s n = some ps) (hne : ps ≠ []) :
    (makeSummaryDict s).map Prod.fst = s.map Prod.fst ∧
    lookupSummary (makeSummaryDict s) n = some (specStats (durations ps)) ∧
    makeSummaryDict ([] : Store) = [] := by
  refine ⟨?_, ?_, rfl⟩
  · unfold makeSummaryDict
    rw [List.map_map]
    rfl
  · have hd : durations ps ≠ [] := fun hc => hne (List.map_eq_nil.mp hc)
    rw [lookupSummary_makeSummaryDict s n ps h, summarize_eq_specStats _ hd]

/-- C4 witness: a timer with three "reading" intervals of durations
1, 2, 3. -/
theorem claim_C4_witness :
    (makeSummaryDict
        [("reading", [((0 : ℚ), (1 : ℚ)), ((0 : ℚ), (2 : ℚ)),
          ((0 : ℚ), (3 : ℚ))])]).map Prod.fst =
      [("reading",
        [((0 : ℚ), (1 : ℚ)), ((0 : ℚ), (2 : ℚ)),
          ((0 : ℚ), (3 : ℚ))])].map Prod.fst ∧
    lookupSummary
        (makeSummaryDict
          [("reading", [((0 : ℚ), (1 : ℚ)), ((0 : ℚ), (2 : ℚ)),
            ((0 : ℚ), (3 : ℚ))])]) "reading" =
      some (specStats (durations
        [((0 : ℚ), (1 : ℚ)), ((0 : ℚ), (2 : ℚ)), ((0 : ℚ), (3 : ℚ))])) ∧
    makeSummaryDict ([] : Store) = [] := by
  exact claim_C4
    [("reading", [((0 : ℚ), (1 : ℚ)), ((0 : ℚ), (2 : ℚ)),
      ((0 : ℚ), (3 : ℚ))])] "reading"
    [((0 : ℚ), (1 : ℚ)), ((0 : ℚ), (2 : ℚ)), ((0 : ℚ), (3 : ℚ))]
    (by decide) (List.cons_ne_nil _ _)

/-- C7: for every recorded name with a non-empty pair list, the summary
record satisfies min ≤ lowerq ≤ median ≤ upperq ≤ max and
min ≤ mean ≤ max, the total is exactly the sum of the durations (exact
rational arithmetic subsumes "within floating-point tolerance"), and the
count is the number of durations. -/
theorem claim_C7 (s : Store) (n : String) (ps : List TimePair)
    (h : lookupStore s n = some ps) (hne : ps ≠ []) :
    ∃ st, lookupSummary (makeSummaryDict s) n = some st ∧
      st.min ≤ st.lowerq ∧ st.lowerq ≤ st.median ∧ st.median ≤ st.upperq ∧
      st.upperq ≤ st.max ∧ st.min ≤ st.mean ∧ st.mean ≤ st.max ∧
      st.total = (durations ps).sum ∧
      st.count = (durations ps).length := by
  have hd : durations ps ≠ [] := fun hc => hne (List.map_eq_nil.mp hc)
  refine ⟨summarize (durations ps),
    lookupSummary_makeSummaryDict s n ps h, ?_, ?_, ?_, ?_, ?_, ?_, rfl, rfl⟩
  · show arrMin (durations ps) ≤ percentile (durations ps) 25
    rw [arrMin_eq_pSort_headD _ hd]
    exact (percentile_between _ hd 25 (by norm_num) (by norm_num)).1
  · exact percentile_mono _ hd 25 50 (by norm_num) (by norm_num) (by norm_num)
  · exact percentile_mono _ hd 50 75 (by norm_num) (by norm_num) (by norm_num)
  · show percentile (durations ps) 75 ≤ arrMax (durations ps)
    rw [arrMax_eq_pSort_getLastD _ hd]
    exact (percentile_between _ hd 75 (by norm_num) (by norm_num)).2
  · exact (mean_bounds _ hd).1
  · exact (mean_bounds _ hd).2

/-- C7 witness: the same three-interval "reading" timer. -/
theorem claim_C7_witness :
    ∃ st, lookupSummary
        (makeSummaryDict
          [("reading", [((0 : ℚ), (1 : ℚ)), ((0 : ℚ), (2 : ℚ)),
            ((0 : ℚ), (3 : ℚ))])]) "reading" = some st ∧
      st.min ≤ st.lowerq ∧ st.lowerq ≤ st.median ∧ st.median ≤ st.upperq ∧
      st.upperq ≤ st.max ∧ st.min ≤ st.mean ∧ st.mean ≤ st.max ∧
      st.total = (durations
        [((0 : ℚ), (1 : ℚ)), ((0 : ℚ), (2 : ℚ)), ((0 : ℚ), (3 : ℚ))]).sum ∧
      st.count = (durations
        [((0 : ℚ), (1 : ℚ)), ((0 : ℚ), (2 : ℚ)),
          ((0 : ℚ), (3 : ℚ))]).length := by
  exact claim_C7
    [("reading", [((0 : ℚ), (1 : ℚ)), ((0 : ℚ), (2 : ℚ)),
      ((0 : ℚ), (3 : ℚ))])] "reading"
    [((0 : ℚ), (1 : ℚ)), ((0 : ℚ), (2 : ℚ)), ((0 : ℚ), (3 : ℚ))]
    (by decide) (List.cons_ne_nil _ _)

/-- Decimal digit characters are not braces. -/
theorem digitChar_noBrace (d : Nat) (hd : d < 10) :
    digitChar d ≠ Char.ofNat 123 ∧ digitChar d ≠ Char.ofNat 125 := by
  interval_cases d <;> exact ⟨by decide, by decide⟩

/-- Every character of `natDigits` is a decimal digit. -/
theorem natDigits_chars (n : Nat) :
    ∀ c ∈ natDigits n, ∃ d, d < 10 ∧ c = digitChar d := by
  induction n using Nat.strong_induction_on with
  | _ n ih =>
      intro c hc
      rw [natDigits] at hc
      by_cases h : n < 10
      · rw [if_pos h] at hc
        exact ⟨n, h, List.mem_singleton.mp hc⟩
      · rw [if_neg h] at hc
        rcases List.mem_append.mp hc with h1 | h2
        · exact ih (n / 10) (Nat.div_lt_self (by omega) (by omega)) c h1
        · exact ⟨n % 10, Nat.mod_lt n (by omega), List.mem_singleton.mp h2⟩

/-- Every character of `intDigits` is a digit or the minus sign. -/
theorem intDigits_chars (i : Int) :
    ∀ c ∈ intDigits i, c = '-' ∨ ∃ d, d < 10 ∧ c = digitChar d := by
  intro c hc
  unfold intDigits at hc
  by_cases h : i < 0
  · rw [if_pos h] at hc
    rcases List.mem_cons.mp hc with h1 | h2
    · exact Or.inl h1
    · exact Or.inr (natDigits_chars _ c h2)
  · rw [if_neg h] at hc
    exact Or.inr (natDigits_chars _ c hc)

/-- `renderValue` emits only digits, `-`, and `/`: never a brace. -/
theorem renderValue_chars (v : ℚ) (fmt : String) :
    ∀ c ∈ (renderValue v fmt).data,
      c ≠ Char.ofNat 123 ∧ c ≠ Char.ofNat 125 := by
  intro c hc
  have hc' : c ∈ intDigits v.num ++
      (if v.den = 1 then [] else '/' :: natDigits v.den) := hc
  rcases List.mem_append.mp hc' with h1 | h2
  · rcases intDigits_chars v.num c h1 with rfl | ⟨d, hd, rfl⟩
    · exact ⟨by decide, by decide⟩
    · exact digitChar_noBrace d hd
  · by_cases hden : v.den = 1
    · rw [if_pos hden] at h2
      cases h2
    · rw [if_neg hden] at h2
      rcases List.mem_cons.mp h2 with rfl | h3
      · exact ⟨by decide, by decide⟩
      · obtain ⟨d, hd, rfl⟩ := natDigits_chars v.den c h3
        exact digitChar_noBrace d hd

/-- A rendered placeholder value is brace-free. -/
theorem renderValue_noBrace (v : ℚ) (fmt : String) :
    stringNoBrace (renderValue v fmt) := by
  constructor
  · intro hmem
    exact (renderValue_chars v fmt _ hmem).1 rfl
  · intro hmem
    exact (renderValue_chars v fmt _ hmem).2 rfl

/-- Brace-freeness is preserved by concatenation. -/
theorem stringNoBrace_append (a b : String) (ha : stringNoBrace a)
    (hb : stringNoBrace b) : stringNoBrace (a ++ b) := by
  unfold stringNoBrace at *
  constructor <;>
    · rw [String.data_append]
      intro hmem
      rcases List.mem_append.mp hmem with h | h
      · first
        | exact ha.1 h
        | exact ha.2 h
      · first
        | exact hb.1 h
        | exact hb.2 h

/-- When every placeholder's field exists, formatting succeeds, and with
brace-free literals the output carries no placeholder syntax at all. -/
theorem formatItems_ok (fields : List (String × ℚ)) (tpl : List TemplateItem)
    (hdef : ∀ i ∈ tpl, itemFieldDefined fields i) :
    ∃ out, formatItems fields tpl = Except.ok out ∧
      ((∀ i ∈ tpl, itemLitNoBrace i) → stringNoBrace out) := by
  induction tpl with
  | nil => exact ⟨"", rfl, fun _ => by decide⟩
  | cons i rest ih =>
      have hdef' : ∀ j ∈ rest, itemFieldDefined fields j :=
        fun j hj => hdef j (List.mem_cons.mpr (Or.inr hj))
      obtain ⟨out, hout, hnb⟩ := ih hdef'
      cases i with
      | lit s =>
          refine ⟨s ++ out, by simp [formatItems, hout], ?_⟩
          intro hall
          have hs : stringNoBrace s := by
            have := hall (TemplateItem.lit s) (List.mem_cons_self _ _)
            simpa [itemLitNoBrace] using this
          exact stringNoBrace_append s out hs
            (hnb (fun j hj => hall j (List.mem_cons.mpr (Or.inr hj))))
      | field n fmt =>
          have hdefi := hdef (TemplateItem.field n fmt)
            (List.mem_cons_self _ _)
          simp only [itemFieldDefined] at hdefi
          obtain ⟨v, hv⟩ := Option.isSome_iff_exists.mp hdefi
          refine ⟨renderValue v fmt ++ out, by simp [formatItems, hv, hout], ?_⟩
          intro hall
          exact stringNoBrace_append _ out (renderValue_noBrace v fmt)
            (hnb (fun j hj => hall j (List.mem_cons.mpr (Or.inr hj))))

/-- When some placeholder's field is missing, formatting fails with the
name of a missing field and produces no output. -/
theorem formatItems_err (fields : List (String × ℚ)) (tpl : List TemplateItem)
    (hbad : ∃ i ∈ tpl, ¬ itemFieldDefined fields i) :
    ∃ m, formatItems fields tpl = Except.error m ∧
      lookupField fields m = none := by
  induction tpl with
  | nil =>
      obtain ⟨i, hi, _⟩ := hbad
      cases hi
  | cons i rest ih =>
      cases i with
      | lit s =>
          have hbad' : ∃ j ∈ rest, ¬ itemFieldDefined fields j := by
            obtain ⟨j, hj, hnd⟩ := hbad
            rcases List.mem_cons.mp hj with rfl | hj2
            · exact absurd trivial hnd
            · exact ⟨j, hj2, hnd⟩
          obtain ⟨m, hm, hlm⟩ := ih hbad'
          exact ⟨m, by simp [formatItems, hm], hlm⟩
      | field n fmt =>
          cases hv : lookupField fields n with
          | none => exact ⟨n, by simp [formatItems, hv], hv⟩
          | some v =>
              have hbad' : ∃ j ∈ rest, ¬ itemFieldDefined fields j := by
                obtain ⟨j, hj, hnd⟩ := hbad
                rcases List.mem_cons.mp hj with rfl | hj2
                · exact absurd (by simp [itemFieldDefined, hv]) hnd
                · exact ⟨j, hj2, hnd⟩
              obtain ⟨m, hm, hlm⟩ := ih hbad'
              exact ⟨m, by simp [formatItems, hv, hm], hlm⟩

/-- The field dict's keys are `name@stat` for each summary entry and each
of the eight statistic keys, in order. -/
theorem buildFieldDict_keys_general (summary : List (String × SummaryStats)) :
    (buildFieldDict summary).map Prod.fst =
      summary.flatMap (fun e =>
        ["total", "min", "max", "lowerq", "median", "upperq", "mean",
         "count"].map (fun st => e.1 ++ "@" ++ st)) := by
  induction summary with
  | nil => rfl
  | cons e rest ih =>
      simp only [buildFieldDict, List.flatMap_cons, List.map_append] at ih ⊢
      rw [ih]
      simp [statList]

/-- The field dict's keys over a store are exactly `name@stat` for each
store name and each of the eight statistic keys, in order. -/
theorem buildFieldDict_keys (s : Store) :
    (buildFieldDict (makeSummaryDict s)).map Prod.fst =
      (s.map Prod.fst).flatMap (fun n =>
        ["total", "min", "max", "lowerq", "median", "upperq", "mean",
         "count"].map (fun st => n ++ "@" ++ st)) := by
  rw [buildFieldDict_keys_general]
  unfold makeSummaryDict
  rw [List.flatMap_map, List.flatMap_map]

/-- C5: `reportFromTemplate`'s flat field mapping has exactly the keys
`name@stat` for every recorded name and each of the eight statistics
(total, min, max, lowerq, median, upperq, mean, count); a template whose
placeholders all reference existing fields formats to a full output string
(brace-free whenever its literal segments are, i.e. no placeholder syntax
remains), and a template referencing any missing field fails with the name
of a missing field instead of producing partial output. -/
theorem claim_C5 (s : Store) (tpl : List TemplateItem) :
    ((buildFieldDict (makeSummaryDict s)).map Prod.fst =
      (s.map Prod.fst).flatMap (fun n =>
        ["total", "min", "max", "lowerq", "median", "upperq", "mean",
         "count"].map (fun st => n ++ "@" ++ st))) ∧
    ((∀ i ∈ tpl, itemFieldDefined (buildFieldDict (makeSummaryDict s)) i) →
      ∃ out, reportFromTemplate s tpl = Except.ok out ∧
        ((∀ i ∈ tpl, itemLitNoBrace i) → stringNoBrace out)) ∧
    ((∃ i ∈ tpl, ¬ itemFieldDefined (buildFieldDict (makeSummaryDict s)) i) →
      ∃ m, reportFromTemplate s tpl = Except.error m ∧
        lookupField (buildFieldDict (makeSummaryDict s)) m = none) := by
  refine ⟨buildFieldDict_keys s, ?_, ?_⟩
  · intro hdef
    exact formatItems_ok _ tpl hdef
  · intro hbad
    exact formatItems_err _ tpl hbad

/-- C5 witness: a one-interval timer; a template using only the existing
field "reading@total" formats successfully, and one using the misspelled
field "reading@tota" fails naming a missing field. -/
theorem claim_C5_witness :
    (∃ out, reportFromTemplate [("reading", [((0 : ℚ), (1 : ℚ))])]
        [TemplateItem.lit "Total: ",
         TemplateItem.field "reading@total" ".2f"] = Except.ok out ∧
      ((∀ i ∈ ([TemplateItem.lit "Total: ",
          TemplateItem.field "reading@total" ".2f"] : List TemplateItem),
        itemLitNoBrace i) → stringNoBrace out)) ∧
    (∃ m, reportFromTemplate [("reading", [((0 : ℚ), (1 : ℚ))])]
        [TemplateItem.field "reading@tota" ""] = Except.error m ∧
      lookupField
        (buildFieldDict (makeSummaryDict
          [("reading", [((0 : ℚ), (1 : ℚ))])])) m = none) := by
  constructor
  · exact (claim_C5 [("reading", [((0 : ℚ), (1 : ℚ))])]
      [TemplateItem.lit "Total: ",
       TemplateItem.field "reading@total" ".2f"]).2.1 (by decide)
  · exact (claim_C5 [("reading", [((0 : ℚ), (1 : ℚ))])]
      [TemplateItem.field "reading@tota" ""]).2.2
      ⟨TemplateItem.field "reading@tota" "", by decide⟩
